import Mathlib

set_option maxHeartbeats 1000000

/- Shallow embedding of the core logic of `process_report_autoamted.py`:
   the version resolver (`find_latest_file`), the owner computation of
   `add_rqc_user_to_sheet`, and the pivot aggregation in `main`.
   Python strings are modelled by `String`; calendar dates by `Int`
   (proleptic ordinal shifted so that day 0 is a Monday, so that
   `weekday` matches `datetime.date.weekday`, Monday = 0 .. Sunday = 6).
   Whitespace and digits are the ASCII approximations of Python's
   Unicode-aware `\s`, `\d` and `str.strip`. -/

/-- Index of the last occurrence of a character in a list, if any. -/
def lastIdxOf (c : Char) : List Char → Option Nat
  | [] => none
  | x :: xs =>
    match lastIdxOf c xs with
    | some i => some (i + 1)
    | none => if x = c then some 0 else none

/-- Python `os.path.splitext`, restricted to plain filenames (no directory
separators, as used by the script): split at the last dot, except that a
name whose characters before that dot are all dots is not split. -/
def splitext (p : String) : String × String :=
  match lastIdxOf '.' p.data with
  | none => (p, "")
  | some i =>
    if (p.data.take i).all (fun c => c = '.') then (p, "")
    else (⟨p.data.take i⟩, ⟨p.data.drop i⟩)

/-- Value of a nonempty ASCII digit string, as computed by Python `int`. -/
def digitsToNat (cs : List Char) : Nat :=
  cs.foldl (fun n c => n * 10 + (c.toNat - '0'.toNat)) 0

/-- Parse the middle part of a filename against `\s*\((\d+)\)`:
optional whitespace, then a parenthesized nonempty digit string,
with nothing after the closing parenthesis. -/
def parseParenNum (cs : List Char) : Option Nat :=
  match cs.dropWhile Char.isWhitespace with
  | '(' :: rest =>
    let digits := rest.takeWhile Char.isDigit
    let after := rest.dropWhile Char.isDigit
    if digits = [] then none
    else if after = [')'] then some (digitsToNat digits) else none
  | _ => none

/-- Case folding used to model `re.IGNORECASE` (ASCII approximation). -/
def lowerChars (s : String) : List Char := s.data.map Char.toLower

/-- Matching a filename against `^{base}(?:\s*\((\d+)\))?{ext}$` with
`re.IGNORECASE` (the regex of `find_latest_file`).  Returns `none` when the
filename does not match, `some none` for the bare file, and `some (some n)`
for a numbered version.  The split into a fixed prefix `base`, a middle
part and a fixed suffix `ext` is exact because both literals have fixed
length and the pattern is anchored at both ends. -/
def matchNum (base ext : String) (filename : String) : Option (Option Nat) :=
  let f := lowerChars filename
  let b := lowerChars base
  let e := lowerChars ext
  if List.isPrefixOf b f then
    let rest := f.drop b.length
    if List.isSuffixOf e rest then
      let mid := rest.take (rest.length - e.length)
      if mid = [] then some none
      else
        match parseParenNum mid with
        | some n => some (some n)
        | none => none
    else none
  else none

/-- The loop state of `find_latest_file`: `latest_file` (initially `None`),
`max_number` (initially `-1`) and `found_match` (initially `False`). -/
structure ResolverState where
  latestFile : Option String
  maxNumber : Int
  foundMatch : Bool
deriving DecidableEq

/-- One iteration of the `for filename in files_in_directory` loop of
`find_latest_file`. -/
def resolverStep (base ext : String) (st : ResolverState) (filename : String) :
    ResolverState :=
  match matchNum base ext filename with
  | none => st
  | some optNum =>
    let st1 : ResolverState := { st with foundMatch := true }
    match optNum with
    | some n =>
      if (n : Int) > st1.maxNumber then
        { st1 with maxNumber := (n : Int), latestFile := some filename }
      else st1
    | none =>
      if st1.maxNumber = -1 then { st1 with latestFile := some filename }
      else st1

def resolverInit : ResolverState :=
  { latestFile := none, maxNumber := -1, foundMatch := false }

/-- The return part of `find_latest_file`: `if not found_match: return
pattern; elif latest_file: return latest_file; else: return pattern`
(Python truthiness: an empty string is falsy). -/
def finishResolver (pattern : String) (st : ResolverState) : String :=
  if st.foundMatch = false then pattern
  else
    match st.latestFile with
    | some f => if f = "" then pattern else f
    | none => pattern

/-- Model of `find_latest_file(base_filename_pattern, directory)` where `listing`
models `os.listdir(directory)` (in its listing order). -/
def find_latest_file (pattern : String) (listing : List String) : String :=
  finishResolver pattern
    (listing.foldl (resolverStep (splitext pattern).1 (splitext pattern).2)
      resolverInit)

/-- The match result of a filename against a base pattern. -/
def matchOf (pattern filename : String) : Option (Option Nat) :=
  matchNum (splitext pattern).1 (splitext pattern).2 filename

/-- The parenthesized numbers of the numbered matches in a listing. -/
def numsOf (base ext : String) (l : List String) : List Nat :=
  l.filterMap (fun f => (matchNum base ext f).bind id)

example : matchOf "Report.xlsx" "Report (10).xlsx" = some (some 10) := by decide
example : matchOf "Report.xlsx" "Report.xlsx" = some none := by decide
example : matchOf "Report.xlsx" "Report(2).XLSX" = some (some 2) := by decide
example : matchOf "Report.xlsx" "Other.xlsx" = none := by decide
example :
    find_latest_file "Report.xlsx"
      ["Report.xlsx", "Report (2).xlsx", "Report (10).xlsx"] =
    "Report (10).xlsx" := by decide

/- ### Row enrichment (`add_rqc_user_to_sheet`, lines 180-200) -/

/-- Python `str.strip()` on a character list (ASCII whitespace). -/
def pyStrip (cs : List Char) : List Char :=
  ((cs.dropWhile Char.isWhitespace).reverse.dropWhile Char.isWhitespace).reverse

/-- Python `str.strip()`. -/
def strip (s : String) : String := ⟨pyStrip s.data⟩

/-- Python `str.split(',')`: always returns at least one (possibly empty)
piece; a trailing comma yields a trailing empty piece. -/
def splitComma : List Char → List (List Char)
  | [] => [[]]
  | c :: cs =>
    if c = ',' then [] :: splitComma cs
    else
      match splitComma cs with
      | h :: t => (c :: h) :: t
      | [] => [[c]]

/-- Python `dict.get(k, dflt)` for a dict built by inserting the pairs of
`m` in order (later inserts overwrite earlier ones, so lookup finds the
value of the last occurrence of the key). -/
def dictGet (m : List (String × String)) (k dflt : String) : String :=
  match m.reverse.find? (fun p => p.1 == k) with
  | some p => p.2
  | none => dflt

/-- The owner string computed for one raw row by `add_rqc_user_to_sheet`
(lines 180-200).  `cell` is the Excel `Study` cell: `none` models an
empty/missing cell (`None` in xlwings); a non-string cell is modelled by
its `str()` form, which is what the code operates on. -/
def computeRqcUser (m : List (String × String)) (cell : Option String) :
    String :=
  match cell with
  | none => "NA"
  | some s =>
    if s = "" then "NA"
    else
      let studies := (splitComma s.data).map (fun cs => strip ⟨cs⟩)
      let users := studies.foldl
        (fun acc study =>
          let u := dictGet m (strip study) "NA"
          if u ∈ acc then acc else acc ++ [u]) []
      if users = [] then "NA" else String.intercalate ", " users

/-- First-occurrence-preserving deduplication of a list of strings:
collect every element not yet seen, in order. -/
def dedupFirst (l : List String) : List String :=
  l.foldl (fun acc u => if u ∈ acc then acc else acc ++ [u]) []

/-- Modelled from the spec (section 4.3 Row Enrichment Engine): split the
cell on commas, trim each piece, look each trimmed piece up in the
ownership map defaulting to `"NA"`, deduplicate preserving first
occurrence, join with `", "`; an empty or missing cell yields `"NA"`.
Stated from the spec's words to compare with `computeRqcUser`. -/
def spec_enrichOwner (m : List (String × String)) (cell : Option String) :
    String :=
  match cell with
  | none => "NA"
  | some s =>
    if s = "" then "NA"
    else
      String.intercalate ", "
        (dedupFirst
          ((splitComma s.data).map (fun cs => dictGet m (strip ⟨cs⟩) "NA")))

example :
    computeRqcUser [("S1", "Alice"), ("S2", "Alice")] (some "S1, S2") =
    "Alice" := by decide
example :
    computeRqcUser [("S1", "Alice")] (some "S1, S3") = "Alice, NA" := by
  decide
example : computeRqcUser [("S1", "Alice")] none = "NA" := by decide

/- ### Dates and the pivot aggregation (`main`, lines 402-467) -/

/-- Python `datetime.date.weekday()`: Monday = 0 .. Sunday = 6, for a date given
as a day number whose day 0 is a Monday. -/
def weekday (d : Int) : Int := d % 7

/-- Line 412: `days_until_sunday = (6 - today_date.weekday() + 7) % 7`. -/
def daysUntilSunday (d : Int) : Int := (6 - weekday d + 7) % 7

/-- Line 413: `next_sunday_date = today_date + timedelta(days=days_until_sunday)`
(line 413). -/
def criteriaDate (d : Int) : Int := d + daysUntilSunday d

/-- The `Task Due Date` cell of a row, before
`pd.to_datetime(..., errors='coerce')`: missing, an unparseable text, or
a proper date. -/
inductive DueCell where
  | missing : DueCell
  | unparseable : String → DueCell
  | parsed : Int → DueCell
deriving DecidableEq

/-- Model of `pd.to_datetime(value, errors='coerce')` followed by `.dt.date`:
missing and unparseable values coerce to `NaT` (`none`). -/
def toDate : DueCell → Option Int
  | DueCell.missing => none
  | DueCell.unparseable _ => none
  | DueCell.parsed d => some d

/-- One row of the `RawData` sheet as read back for the pivot step:
`rqcUser` is the `RQC User` cell (`none` = missing/empty, which pandas
reads as NaN), `content` is the `Content` cell (`none` = NaN), `dueDate`
the `Task Due Date` cell. -/
structure Record where
  rqcUser : Option String
  content : Option String
  dueDate : DueCell
deriving DecidableEq

/-- Pandas `astype(str)` on a content cell renders NaN as `"nan"`. -/
def contentStr : Option String → String
  | none => "nan"
  | some s => s

/-- Substring containment on character lists. -/
def containsSub (hay needle : List Char) : Bool :=
  if List.isPrefixOf needle hay then true
  else
    match hay with
    | [] => false
    | _ :: t => containsSub t needle

/-- Model of `Series.str.contains('Unblinded', case=False)` for the fixed literal
pattern: case-insensitive substring containment. -/
def containsCI (hay needle : String) : Bool :=
  containsSub (lowerChars hay) (lowerChars needle)

/-- The `Count_Unblinded` helper column (lines 422-424). -/
def unblindedFlag (r : Record) : Nat :=
  if containsCI (contentStr r.content) "Unblinded" then 1 else 0

/-- The `Count_DueToday` helper column (lines 427-430): due date present and
`<= today`. -/
def dueTodayFlag (today : Int) (r : Record) : Nat :=
  match toDate r.dueDate with
  | some d => if d ≤ today then 1 else 0
  | none => 0

/-- The `Count_DueByCriteriaDate` helper column (lines 433-436): due date
present and `<= next_sunday_date`. -/
def dueByFridayFlag (today : Int) (r : Record) : Nat :=
  match toDate r.dueDate with
  | some d => if d ≤ criteriaDate today then 1 else 0
  | none => 0

structure SummaryRow where
  owner : String
  unblinded : Nat
  dueToday : Nat
  dueByFriday : Nat
deriving DecidableEq

/-- The summary table: its value-column headers in order, and one row per
owner group. -/
structure PivotTable where
  headers : List String
  rows : List SummaryRow
deriving DecidableEq

/-- The `values=[...]` argument of `pd.pivot_table` (lines 450-454), in
source order. -/
def pivotValueColumns : List String :=
  ["Count_Unblinded", "Count_DueToday", "Count_DueByCriteriaDate"]

/-- The `rename(columns={...})` mapping (lines 460-467). -/
def renameColumn (s : String) : String :=
  if s = "Count_Unblinded" then "Unblinded"
  else if s = "Count_DueToday" then "Due By Today"
  else if s = "Count_DueByCriteriaDate" then "Due By Friday"
  else s

/-- Strict lexicographic comparison of character lists (by code point). -/
def listLtChar : List Char → List Char → Bool
  | [], [] => false
  | [], _ :: _ => true
  | _ :: _, [] => false
  | a :: as, b :: bs =>
    if a < b then true else if b < a then false else listLtChar as bs

/-- Lexicographic `<` on strings, as used by `sort_index` on the ASCII
column labels. -/
def strLtB (a b : String) : Bool := listLtChar a.data b.data

/-- The value-column headers of a non-empty pivot: `pd.pivot_table` ends
with `table.sort_index(axis=1)`, so the value columns appear in ascending
lexicographic order of their pre-rename names, and `rename` keeps the
positions. -/
def sortedPivotHeaders : List String :=
  (List.insertionSort (fun a b => strLtB a b) pivotValueColumns).map
    renameColumn

/-- Pandas `groupby(rqc_user).sum()` semantics for one aggregated column: the sum
of `f` over the records of owner `o` (rows whose `RQC User` is NaN never
equal `some o`, which realizes the `dropna(subset=['RQC User'])`). -/
def countWith (f : Record → Nat) (o : String) (records : List Record) : Nat :=
  ((records.filter (fun r => r.rqcUser == some o)).map f).sum

/-- The pivot step of `main` (lines 438-467).  The guard is
`df_for_pivot.empty or df_for_pivot['RQC User'].isna().all()`; in that
case an empty frame with the literal columns of line 443 is produced.
Otherwise rows with NaN `RQC User` are dropped and the rest grouped by
owner, summing the three helper columns.  pandas sorts the group keys;
the spec leaves the row order unspecified, and no property below depends
on it, so rows are listed in first-occurrence order of the owners. -/
def buildPivot (today : Int) (records : List Record) : PivotTable :=
  if records = [] ∨ ∀ r ∈ records, r.rqcUser = none then
    { headers := ["Unblinded", "Due By Today", "Due By Friday"], rows := [] }
  else
    { headers := sortedPivotHeaders,
      rows :=
        (dedupFirst (records.filterMap (fun r => r.rqcUser))).map
          (fun o =>
            { owner := o,
              unblinded := countWith unblindedFlag o records,
              dueToday := countWith (dueTodayFlag today) o records,
              dueByFriday := countWith (dueByFridayFlag today) o records }) }

example : sortedPivotHeaders = ["Due By Friday", "Due By Today", "Unblinded"] := by decide
example :
    buildPivot 0
      [{ rqcUser := some "Alice", content := some "xx Unblinded yy",
         dueDate := DueCell.parsed 0 }] =
    { headers := ["Due By Friday", "Due By Today", "Unblinded"],
      rows := [{ owner := "Alice", unblinded := 1, dueToday := 1,
                 dueByFriday := 1 }] } := by decide

/- ### Resolver lemmas -/

/-- Loop invariant of `find_latest_file` after processing the files of `l`:
`found_match` records whether any file matched; `max_number` is `-1` when
no numbered match was seen and otherwise the maximum parenthesized number;
`latest_file` is `None` iff nothing matched, and otherwise a matching file
that carries the maximum number when a numbered match exists. -/
structure ResolverInv (base ext : String) (l : List String)
    (st : ResolverState) : Prop where
  found : st.foundMatch = true ↔ ∃ f ∈ l, matchNum base ext f ≠ none
  maxNil : numsOf base ext l = [] → st.maxNumber = -1
  maxSome : numsOf base ext l ≠ [] →
    ∃ m : Nat, st.maxNumber = (m : Int) ∧ m ∈ numsOf base ext l ∧
      ∀ j ∈ numsOf base ext l, j ≤ m
  latestNone : st.latestFile = none ↔ ∀ f ∈ l, matchNum base ext f = none
  latestSome : ∀ g, st.latestFile = some g → g ∈ l ∧
    (numsOf base ext l = [] → matchNum base ext g = some none) ∧
    ∀ m : Nat, st.maxNumber = (m : Int) → matchNum base ext g = some (some m)

theorem numsOf_append_of_none {base ext : String} {f : String}
    (l : List String) (hm : matchNum base ext f = none) :
    numsOf base ext (l ++ [f]) = numsOf base ext l := by
  simp [numsOf, List.filterMap_append, hm]

theorem numsOf_append_of_bare {base ext : String} {f : String}
    (l : List String) (hm : matchNum base ext f = some none) :
    numsOf base ext (l ++ [f]) = numsOf base ext l := by
  simp [numsOf, List.filterMap_append, hm]

theorem numsOf_append_of_num {base ext : String} {f : String} {n : Nat}
    (l : List String) (hm : matchNum base ext f = some (some n)) :
    numsOf base ext (l ++ [f]) = numsOf base ext l ++ [n] := by
  simp [numsOf, List.filterMap_append, hm]

theorem numsOf_ne_nil_of_num {base ext : String} {l : List String}
    {f : String} {n : Nat} (hf : f ∈ l)
    (hm : matchNum base ext f = some (some n)) :
    numsOf base ext l ≠ [] := by
  have : n ∈ numsOf base ext l :=
    List.mem_filterMap.2 ⟨f, hf, by simp [hm]⟩
  exact List.ne_nil_of_mem this

theorem numsOf_eq_nil_of_all_none {base ext : String} {l : List String}
    (h : ∀ f ∈ l, matchNum base ext f = none) :
    numsOf base ext l = [] := by
  simp only [numsOf, List.filterMap_eq_nil_iff]
  intro f hf
  simp [h f hf]

theorem resolverStep_inv {base ext : String} {l : List String}
    {st : ResolverState} (f : String) (h : ResolverInv base ext l st) :
    ResolverInv base ext (l ++ [f]) (resolverStep base ext st f) := by
  obtain ⟨h1, h2, h3, h4, h5⟩ := h
  cases hm : matchNum base ext f with
  | none =>
    have hstep : resolverStep base ext st f = st := by
      simp [resolverStep, hm]
    rw [hstep]
    have hnums := numsOf_append_of_none l hm
    refine ⟨?_, ?_, ?_, ?_, ?_⟩
    · rw [h1]
      constructor
      · rintro ⟨g, hg, hgne⟩
        exact ⟨g, List.mem_append.2 (Or.inl hg), hgne⟩
      · rintro ⟨g, hg, hgne⟩
        rcases List.mem_append.1 hg with hgl | hgf
        · exact ⟨g, hgl, hgne⟩
        · rw [List.mem_singleton.1 hgf] at hgne
          exact absurd hm hgne
    · rw [hnums]; exact h2
    · rw [hnums]; exact h3
    · rw [h4]
      constructor
      · intro hall g hg
        rcases List.mem_append.1 hg with hgl | hgf
        · exact hall g hgl
        · rw [List.mem_singleton.1 hgf]; exact hm
      · intro hall g hg
        exact hall g (List.mem_append.2 (Or.inl hg))
    · intro g hg
      rw [hnums]
      obtain ⟨hmem, hbare, hnumed⟩ := h5 g hg
      exact ⟨List.mem_append.2 (Or.inl hmem), hbare, hnumed⟩
  | some optNum =>
    cases optNum with
    | some n =>
      by_cases hgt : (n : Int) > st.maxNumber
      · have hstep : resolverStep base ext st f =
            { latestFile := some f, maxNumber := (n : Int),
              foundMatch := true } := by
          simp [resolverStep, hm, hgt]
        rw [hstep]
        have hnums := numsOf_append_of_num l hm
        refine ⟨?_, ?_, ?_, ?_, ?_⟩
        · simp only [true_iff]
          exact ⟨f, List.mem_append.2 (Or.inr (List.mem_singleton.2 rfl)),
            by simp [hm]⟩
        · intro habs
          rw [hnums] at habs
          exact absurd habs (by simp)
        · intro _
          refine ⟨n, rfl, by rw [hnums]; simp, ?_⟩
          intro j hj
          rw [hnums] at hj
          rcases List.mem_append.1 hj with hjl | hjn
          · by_cases hln : numsOf base ext l = []
            · rw [hln] at hjl; exact absurd hjl (by simp)
            · obtain ⟨m, hmax, _, hbound⟩ := h3 hln
              have hjm := hbound j hjl
              have : (m : Int) < (n : Int) := by rw [← hmax]; exact hgt
              omega
          · rw [List.mem_singleton.1 hjn]
        · simp only [Option.some_ne_none, false_iff]
          intro hall
          have := hall f (List.mem_append.2 (Or.inr (List.mem_singleton.2 rfl)))
          exact absurd this (by simp [hm])
        · intro g hg
          rw [Option.some_inj] at hg
          subst hg
          refine ⟨List.mem_append.2 (Or.inr (List.mem_singleton.2 rfl)), ?_, ?_⟩
          · intro habs
            rw [hnums] at habs
            exact absurd habs (by simp)
          · intro m hmn
            have hnm : (n : Int) = (m : Int) := hmn
            have : m = n := by omega
            rw [this]; exact hm
      · have hstep : resolverStep base ext st f = { st with foundMatch := true } := by
          simp [resolverStep, hm, hgt]
        rw [hstep]
        have hnums := numsOf_append_of_num l hm
        have hln : numsOf base ext l ≠ [] := by
          intro habs
          have := h2 habs
          omega
        obtain ⟨m, hmax, hmmem, hbound⟩ := h3 hln
        have hlf : st.latestFile ≠ none := by
          intro habs
          have hall := h4.1 habs
          exact hln (numsOf_eq_nil_of_all_none hall)
        refine ⟨?_, ?_, ?_, ?_, ?_⟩
        · simp only [true_iff]
          exact ⟨f, List.mem_append.2 (Or.inr (List.mem_singleton.2 rfl)),
            by simp [hm]⟩
        · intro habs
          rw [hnums] at habs
          exact absurd habs (by simp)
        · intro _
          refine ⟨m, hmax, by rw [hnums]; exact List.mem_append.2 (Or.inl hmmem), ?_⟩
          intro j hj
          rw [hnums] at hj
          rcases List.mem_append.1 hj with hjl | hjn
          · exact hbound j hjl
          · rw [List.mem_singleton.1 hjn]
            omega
        · simp only []
          constructor
          · intro habs; exact absurd habs hlf
          · intro hall
            have := hall f (List.mem_append.2 (Or.inr (List.mem_singleton.2 rfl)))
            exact absurd this (by simp [hm])
        · intro g hg
          obtain ⟨hmem, _, hnumed⟩ := h5 g hg
          refine ⟨List.mem_append.2 (Or.inl hmem), ?_, hnumed⟩
          intro habs
          rw [hnums] at habs
          exact absurd habs (by simp)
    | none =>
      by_cases heq : st.maxNumber = -1
      · have hstep : resolverStep base ext st f =
            { st with foundMatch := true, latestFile := some f } := by
          simp [resolverStep, hm, heq]
        rw [hstep]
        have hnums := numsOf_append_of_bare l hm
        have hln : numsOf base ext l = [] := by
          by_contra hcon
          obtain ⟨m, hmax, _, _⟩ := h3 hcon
          omega
        refine ⟨?_, ?_, ?_, ?_, ?_⟩
        · simp only [true_iff]
          exact ⟨f, List.mem_append.2 (Or.inr (List.mem_singleton.2 rfl)),
            by simp [hm]⟩
        · intro _; exact heq
        · intro habs
          rw [hnums] at habs
          exact absurd hln habs
        · simp only [Option.some_ne_none, false_iff]
          intro hall
          have := hall f (List.mem_append.2 (Or.inr (List.mem_singleton.2 rfl)))
          exact absurd this (by simp [hm])
        · intro g hg
          rw [Option.some_inj] at hg
          subst hg
          refine ⟨List.mem_append.2 (Or.inr (List.mem_singleton.2 rfl)), ?_, ?_⟩
          · intro _; exact hm
          · intro m hmn
            exfalso
            have hnm : st.maxNumber = (m : Int) := hmn
            rw [heq] at hnm
            omega
      · have hstep : resolverStep base ext st f = { st with foundMatch := true } := by
          simp [resolverStep, hm, heq]
        rw [hstep]
        have hnums := numsOf_append_of_bare l hm
        have hln : numsOf base ext l ≠ [] := by
          intro habs
          exact heq (h2 habs)
        have hlf : st.latestFile ≠ none := by
          intro habs
          have hall := h4.1 habs
          exact hln (numsOf_eq_nil_of_all_none hall)
        refine ⟨?_, ?_, ?_, ?_, ?_⟩
        · simp only [true_iff]
          exact ⟨f, List.mem_append.2 (Or.inr (List.mem_singleton.2 rfl)),
            by simp [hm]⟩
        · intro habs
          rw [hnums] at habs
          exact absurd habs hln
        · intro _
          rw [hnums]
          obtain ⟨m, hmax, hmmem, hbound⟩ := h3 hln
          exact ⟨m, hmax, hmmem, hbound⟩
        · simp only []
          constructor
          · intro habs; exact absurd habs hlf
          · intro hall
            have := hall f (List.mem_append.2 (Or.inr (List.mem_singleton.2 rfl)))
            exact absurd this (by simp [hm])
        · intro g hg
          obtain ⟨hmem, hbare, hnumed⟩ := h5 g hg
          rw [hnums]
          exact ⟨List.mem_append.2 (Or.inl hmem), hbare, hnumed⟩

theorem resolver_foldl_inv (base ext : String) :
    ∀ (l done : List String) (st : ResolverState),
      ResolverInv base ext done st →
      ResolverInv base ext (done ++ l) (l.foldl (resolverStep base ext) st) := by
  intro l
  induction l with
  | nil =>
    intro done st h
    simpa using h
  | cons f t ih =>
    intro done st h
    have hstep := resolverStep_inv f h
    have := ih (done ++ [f]) (resolverStep base ext st f) hstep
    simpa [List.append_assoc] using this

theorem resolverInit_inv (base ext : String) :
    ResolverInv base ext [] resolverInit := by
  refine ⟨?_, ?_, ?_, ?_, ?_⟩ <;> simp [resolverInit, numsOf]

theorem resolver_inv (base ext : String) (listing : List String) :
    ResolverInv base ext listing
      (listing.foldl (resolverStep base ext) resolverInit) := by
  have := resolver_foldl_inv base ext listing [] resolverInit
    (resolverInit_inv base ext)
  simpa using this

/-- Concatenating the two parts of `os.path.splitext` restores the name. -/
theorem splitext_concat (p : String) : (splitext p).1 ++ (splitext p).2 = p := by
  obtain ⟨cs⟩ := p
  simp only [splitext]
  cases h : lastIdxOf '.' cs with
  | none =>
    show String.mk cs ++ String.mk [] = String.mk cs
    show String.mk (cs ++ []) = String.mk cs
    rw [List.append_nil]
  | some i =>
    by_cases hall : (cs.take i).all (fun c => c = '.')
    · simp only [hall, if_true]
      show String.mk (cs ++ []) = String.mk cs
      rw [List.append_nil]
    · simp only [hall, if_false]
      show String.mk (cs.take i ++ cs.drop i) = String.mk cs
      rw [List.take_append_drop]

/-- A string whose character list is empty is the empty string. -/
theorem eq_empty_of_data_eq_nil {s : String} (h : s.data = []) : s = "" := by
  obtain ⟨cs⟩ := s
  have h' : cs = [] := h
  subst h'
  rfl

/-- The empty filename matches a pattern only when the base and extension
are both empty. -/
theorem matchNum_empty_filename {base ext : String}
    (h : matchNum base ext "" ≠ none) : base = "" ∧ ext = "" := by
  unfold matchNum at h
  simp only [lowerChars] at h
  have hdata : (("" : String).data.map Char.toLower) = [] := rfl
  rw [hdata] at h
  by_cases hb : List.isPrefixOf (base.data.map Char.toLower)
      ([] : List Char) = true
  · rw [if_pos hb] at h
    have hbnil : base.data = [] :=
      List.map_eq_nil_iff.1
        (List.prefix_nil.1 ((List.isPrefixOf_iff_prefix).1 hb))
    rw [List.drop_nil] at h
    by_cases he : List.isSuffixOf (ext.data.map Char.toLower)
        ([] : List Char) = true
    · have henil : ext.data = [] :=
        List.map_eq_nil_iff.1
          (List.suffix_nil.1 ((List.isSuffixOf_iff_suffix).1 he))
      exact ⟨eq_empty_of_data_eq_nil hbnil, eq_empty_of_data_eq_nil henil⟩
    · rw [if_neg he] at h
      exact absurd rfl h
  · rw [if_neg hb] at h
    exact absurd rfl h

/-- The empty filename matches a pattern only when the pattern itself is
empty. -/
theorem matchOf_empty_pattern {p : String}
    (h : matchOf p "" ≠ none) : p = "" := by
  obtain ⟨hb, he⟩ := matchNum_empty_filename h
  have := splitext_concat p
  rw [hb, he] at this
  exact this.symm

/-- If no file in the listing matches, `find_latest_file` returns the
original pattern. -/
theorem resolver_no_match {p : String} {listing : List String}
    (h : ∀ f ∈ listing, matchOf p f = none) :
    find_latest_file p listing = p := by
  have hinv := resolver_inv (splitext p).1 (splitext p).2 listing
  unfold find_latest_file finishResolver
  have hfm : (listing.foldl
      (resolverStep (splitext p).1 (splitext p).2) resolverInit).foundMatch
      = false := by
    rcases hb : (listing.foldl
        (resolverStep (splitext p).1 (splitext p).2)
        resolverInit).foundMatch with _ | _
    · rfl
    · exfalso
      obtain ⟨g, hg, hgne⟩ := hinv.found.1 hb
      exact hgne (h g hg)
  rw [hfm]
  simp

/-- If some numbered version matches, `find_latest_file` returns a file of
the listing that matches with the maximum parenthesized number. -/
theorem resolver_numbered {p : String} {listing : List String}
    (h : ∃ f ∈ listing, ∃ n : Nat, matchOf p f = some (some n)) :
    find_latest_file p listing ∈ listing ∧
    ∃ k : Nat, matchOf p (find_latest_file p listing) = some (some k) ∧
      ∀ f ∈ listing, ∀ j : Nat, matchOf p f = some (some j) → j ≤ k := by
  have hinv := resolver_inv (splitext p).1 (splitext p).2 listing
  obtain ⟨f0, hf0, n0, hm0⟩ := h
  have hln : numsOf (splitext p).1 (splitext p).2 listing ≠ [] :=
    numsOf_ne_nil_of_num hf0 hm0
  obtain ⟨m, hmax, hmmem, hbound⟩ := hinv.maxSome hln
  have hfm : (listing.foldl
      (resolverStep (splitext p).1 (splitext p).2) resolverInit).foundMatch
      = true :=
    hinv.found.2 ⟨f0, hf0, by simp [matchOf] at hm0; simp [hm0]⟩
  obtain ⟨g, hg⟩ : ∃ g, (listing.foldl
      (resolverStep (splitext p).1 (splitext p).2)
      resolverInit).latestFile = some g := by
    rcases hb : (listing.foldl
        (resolverStep (splitext p).1 (splitext p).2)
        resolverInit).latestFile with _ | g
    · exfalso
      have hall := hinv.latestNone.1 hb
      exact hln (numsOf_eq_nil_of_all_none hall)
    · exact ⟨g, rfl⟩
  obtain ⟨hgmem, _, hgnum⟩ := hinv.latestSome g hg
  have hgm : matchNum (splitext p).1 (splitext p).2 g = some (some m) :=
    hgnum m hmax
  have hres : find_latest_file p listing = g := by
    unfold find_latest_file finishResolver
    rw [hfm, hg]
    simp only [Bool.true_eq_false, if_false]
    by_cases hge : g = ""
    · have hp : p = "" := by
        apply matchOf_empty_pattern
        rw [← hge]
        simp [matchOf, hgm]
      simp [hge, hp]
    · simp [hge]
  rw [hres]
  refine ⟨hgmem, m, hgm, ?_⟩
  intro f hf j hj
  have : j ∈ numsOf (splitext p).1 (splitext p).2 listing :=
    List.mem_filterMap.2 ⟨f, hf, by simp [matchOf] at hj; simp [hj]⟩
  exact hbound j this

/-- If some file matches but no numbered version does, `find_latest_file`
returns a bare match from the listing. -/
theorem resolver_bare {p : String} {listing : List String}
    (hm : ∃ f ∈ listing, matchOf p f = some none)
    (hno : ∀ f ∈ listing, ∀ n : Nat, matchOf p f ≠ some (some n)) :
    find_latest_file p listing ∈ listing ∧
    matchOf p (find_latest_file p listing) = some none := by
  have hinv := resolver_inv (splitext p).1 (splitext p).2 listing
  obtain ⟨f0, hf0, hm0⟩ := hm
  have hln : numsOf (splitext p).1 (splitext p).2 listing = [] := by
    by_contra hcon
    obtain ⟨j, hj⟩ := List.exists_mem_of_ne_nil _ hcon
    obtain ⟨f, hf, hfj⟩ := List.mem_filterMap.1 hj
    have : matchNum (splitext p).1 (splitext p).2 f = some (some j) := by
      rcases hv : matchNum (splitext p).1 (splitext p).2 f with _ | v
      · rw [hv] at hfj; simp at hfj
      · rcases v with _ | k
        · rw [hv] at hfj; simp at hfj
        · rw [hv] at hfj
          have hkj : k = j := by simpa using hfj
          rw [hkj]
    exact hno f hf j this
  have hfm : (listing.foldl
      (resolverStep (splitext p).1 (splitext p).2) resolverInit).foundMatch
      = true :=
    hinv.found.2 ⟨f0, hf0, by simp [matchOf] at hm0; simp [hm0]⟩
  obtain ⟨g, hg⟩ : ∃ g, (listing.foldl
      (resolverStep (splitext p).1 (splitext p).2)
      resolverInit).latestFile = some g := by
    rcases hb : (listing.foldl
        (resolverStep (splitext p).1 (splitext p).2)
        resolverInit).latestFile with _ | g
    · exfalso
      have hall := hinv.latestNone.1 hb
      have := hall f0 hf0
      simp [matchOf] at hm0
      rw [hm0] at this
      exact absurd this (by simp)
    · exact ⟨g, rfl⟩
  obtain ⟨hgmem, hgbare, _⟩ := hinv.latestSome g hg
  have hgm : matchNum (splitext p).1 (splitext p).2 g = some none :=
    hgbare hln
  have hres : find_latest_file p listing = g := by
    unfold find_latest_file finishResolver
    rw [hfm, hg]
    simp only [Bool.true_eq_false, if_false]
    by_cases hge : g = ""
    · have hp : p = "" := by
        apply matchOf_empty_pattern
        rw [← hge]
        simp [matchOf, hgm]
      simp [hge, hp]
    · simp [hge]
  rw [hres]
  exact ⟨hgmem, by simp [matchOf, hgm]⟩

/- ### Enrichment lemmas -/

theorem dropWhile_head_not {p : Char → Bool} :
    ∀ {l : List Char} {x : Char} {xs : List Char},
      List.dropWhile p l = x :: xs → p x = false := by
  intro l
  induction l with
  | nil => intro x xs h; simp at h
  | cons a t ih =>
    intro x xs h
    rw [List.dropWhile_cons] at h
    by_cases ha : p a = true
    · rw [if_pos ha] at h
      exact ih h
    · rw [if_neg ha] at h
      injection h with h1 h2
      rw [← h1]
      simpa using ha

theorem dropWhile_idem {p : Char → Bool} (l : List Char) :
    (l.dropWhile p).dropWhile p = l.dropWhile p := by
  cases h : l.dropWhile p with
  | nil => simp
  | cons x xs =>
    have hx := dropWhile_head_not h
    rw [List.dropWhile_cons, hx]
    simp

/-- Trimming whitespace from the right end of a left-trimmed list leaves a
list whose head is still not whitespace. -/
theorem dropWhile_trim_head {ws : Char → Bool} (a : List Char)
    (ha : a.dropWhile ws = a) :
    ((a.reverse.dropWhile ws).reverse).dropWhile ws =
      (a.reverse.dropWhile ws).reverse := by
  cases hr : (a.reverse.dropWhile ws).reverse with
  | nil => simp
  | cons x xs =>
    have hpre : (a.reverse.dropWhile ws).reverse <+: a := by
      apply List.reverse_suffix.1
      rw [List.reverse_reverse]
      exact List.dropWhile_suffix ws
    rw [hr] at hpre
    obtain ⟨t, ht⟩ := hpre
    have hdrop : List.dropWhile ws a = x :: (xs ++ t) := by
      rw [ha, ← ht]
      simp
    have hxf : ws x = false := dropWhile_head_not hdrop
    rw [List.dropWhile_cons, hxf]
    simp

theorem pyStrip_idem (cs : List Char) : pyStrip (pyStrip cs) = pyStrip cs := by
  unfold pyStrip
  have ha : (cs.dropWhile Char.isWhitespace).dropWhile Char.isWhitespace =
      cs.dropWhile Char.isWhitespace := dropWhile_idem _
  have h1 := dropWhile_trim_head (cs.dropWhile Char.isWhitespace) ha
  rw [h1, List.reverse_reverse, dropWhile_idem]

theorem strip_idem (s : String) : strip (strip s) = strip s :=
  congrArg String.mk (pyStrip_idem s.data)

theorem splitComma_ne_nil (cs : List Char) : splitComma cs ≠ [] := by
  cases cs with
  | nil => simp [splitComma]
  | cons c t =>
    simp only [splitComma]
    by_cases hc : c = ','
    · simp [hc]
    · rw [if_neg hc]
      cases h : splitComma t <;> simp

theorem foldl_dedup_ne_nil :
    ∀ (l acc : List String), acc ≠ [] →
      l.foldl (fun acc u => if u ∈ acc then acc else acc ++ [u]) acc ≠ [] := by
  intro l
  induction l with
  | nil => intro acc h; simpa using h
  | cons u t ih =>
    intro acc h
    rw [List.foldl_cons]
    apply ih
    by_cases hu : u ∈ acc
    · rw [if_pos hu]; exact h
    · rw [if_neg hu]; simp

theorem dedupFirst_ne_nil {l : List String} (h : l ≠ []) :
    dedupFirst l ≠ [] := by
  cases l with
  | nil => exact absurd rfl h
  | cons x t =>
    unfold dedupFirst
    rw [List.foldl_cons]
    apply foldl_dedup_ne_nil
    simp

theorem mem_foldl_dedup :
    ∀ (l acc : List String) (x : String),
      x ∈ l.foldl (fun acc u => if u ∈ acc then acc else acc ++ [u]) acc ↔
        x ∈ acc ∨ x ∈ l := by
  intro l
  induction l with
  | nil => intro acc x; simp
  | cons u t ih =>
    intro acc x
    rw [List.foldl_cons, ih]
    by_cases hu : u ∈ acc
    · rw [if_pos hu]
      constructor
      · rintro (hx | hx)
        · exact Or.inl hx
        · exact Or.inr (List.mem_cons_of_mem _ hx)
      · rintro (hx | hx)
        · exact Or.inl hx
        · rcases List.mem_cons.1 hx with rfl | hx
          · exact Or.inl hu
          · exact Or.inr hx
    · rw [if_neg hu]
      constructor
      · rintro (hx | hx)
        · rcases List.mem_append.1 hx with hx | hx
          · exact Or.inl hx
          · exact Or.inr (List.mem_cons.2 (Or.inl (List.mem_singleton.1 hx)))
        · exact Or.inr (List.mem_cons_of_mem _ hx)
      · rintro (hx | hx)
        · exact Or.inl (List.mem_append.2 (Or.inl hx))
        · rcases List.mem_cons.1 hx with rfl | hx
          · exact Or.inl (List.mem_append.2 (Or.inr (List.mem_singleton.2 rfl)))
          · exact Or.inr hx

theorem mem_dedupFirst {l : List String} {x : String} :
    x ∈ dedupFirst l ↔ x ∈ l := by
  unfold dedupFirst
  rw [mem_foldl_dedup]
  simp

theorem nodup_foldl_dedup :
    ∀ (l acc : List String), acc.Nodup →
      (l.foldl (fun acc u => if u ∈ acc then acc else acc ++ [u]) acc).Nodup := by
  intro l
  induction l with
  | nil => intro acc h; simpa using h
  | cons u t ih =>
    intro acc h
    rw [List.foldl_cons]
    apply ih
    by_cases hu : u ∈ acc
    · rw [if_pos hu]; exact h
    · rw [if_neg hu]
      rw [List.nodup_append]
      exact ⟨h, List.nodup_singleton _, by simpa using hu⟩

theorem nodup_dedupFirst (l : List String) : (dedupFirst l).Nodup :=
  nodup_foldl_dedup l [] List.nodup_nil

theorem users_fold_eq_dedupFirst (m : List (String × String)) (s : String) :
    ((splitComma s.data).map (fun cs => strip ⟨cs⟩)).foldl
      (fun acc study =>
        let u := dictGet m (strip study) "NA"
        if u ∈ acc then acc else acc ++ [u]) [] =
    dedupFirst ((splitComma s.data).map (fun cs => dictGet m (strip ⟨cs⟩) "NA")) := by
  show ((splitComma s.data).map (fun cs => strip ⟨cs⟩)).foldl
      (fun acc study =>
        if dictGet m (strip study) "NA" ∈ acc then acc
        else acc ++ [dictGet m (strip study) "NA"]) [] = _
  rw [show (fun (acc : List String) study =>
      if dictGet m (strip study) "NA" ∈ acc then acc
      else acc ++ [dictGet m (strip study) "NA"]) =
      (fun (acc : List String) study =>
        (fun acc u => if u ∈ acc then acc else acc ++ [u]) acc
          ((fun study => dictGet m (strip study) "NA") study)) from rfl]
  rw [← List.foldl_map (fun study => dictGet m (strip study) "NA")
    (fun acc u => if u ∈ acc then acc else acc ++ [u])]
  rw [List.map_map]
  have hcomp : ((fun study => dictGet m (strip study) "NA") ∘
      (fun cs : List Char => strip ⟨cs⟩)) =
      (fun cs : List Char => dictGet m (strip ⟨cs⟩) "NA") := by
    funext cs
    simp only [Function.comp]
    rw [strip_idem]
  rw [hcomp]
  rfl

/- ### Aggregation lemmas -/

theorem countWith_cons (f : Record → Nat) (o : String) (r : Record)
    (rs : List Record) :
    countWith f o (r :: rs) =
      (if r.rqcUser == some o then f r else 0) + countWith f o rs := by
  unfold countWith
  rw [List.filter_cons]
  by_cases h : (r.rqcUser == some o) = true
  · rw [if_pos h, if_pos h, List.map_cons, List.sum_cons]
  · rw [if_neg h, if_neg h]
    simp

theorem sum_map_addf (os : List String) (f g : String → Nat) :
    (os.map (fun o => f o + g o)).sum = (os.map f).sum + (os.map g).sum := by
  induction os with
  | nil => simp
  | cons a t ih =>
    simp only [List.map_cons, List.sum_cons, ih]
    omega

theorem sum_if_single (os : List String) (o0 : String) (c : Nat)
    (hnd : os.Nodup) (hmem : o0 ∈ os) :
    (os.map (fun o => if (some o0 : Option String) == some o then c
      else 0)).sum = c := by
  induction os with
  | nil => simp at hmem
  | cons a t ih =>
    rw [List.nodup_cons] at hnd
    rw [List.map_cons, List.sum_cons]
    rcases List.mem_cons.1 hmem with rfl | hmem'
    · have hbeq : ((some o0 : Option String) == some o0) = true := by simp
      rw [if_pos hbeq]
      have hzero : (t.map (fun o => if (some o0 : Option String) == some o
          then c else 0)).sum = 0 := by
        apply List.sum_eq_zero
        intro x hx
        obtain ⟨o, ho, hxo⟩ := List.mem_map.1 hx
        have : o0 ≠ o := by
          intro habs
          rw [habs] at hnd
          exact hnd.1 ho
        rw [← hxo, if_neg (by simpa using this)]
      rw [hzero]
      omega
    · have : o0 ≠ a := by
        intro habs
        rw [habs] at hmem'
        exact hnd.1 hmem'
      rw [if_neg (by simpa using this), ih hnd.2 hmem']
      omega

theorem sum_countWith (f : Record → Nat) :
    ∀ (records : List Record) (os : List String), os.Nodup →
      (∀ r ∈ records, ∃ o ∈ os, r.rqcUser = some o) →
      (os.map (fun o => countWith f o records)).sum = (records.map f).sum := by
  intro records
  induction records with
  | nil =>
    intro os _ _
    have : ∀ o ∈ os, countWith f o [] = 0 := by
      intro o _
      rfl
    rw [List.sum_eq_zero]
    · simp
    · intro x hx
      obtain ⟨o, ho, hxo⟩ := List.mem_map.1 hx
      rw [← hxo]
      exact this o ho
  | cons r rs ih =>
    intro os hnd hcov
    obtain ⟨o0, ho0mem, ho0⟩ := hcov r (List.mem_cons_self r rs)
    have hfn : (fun o => countWith f o (r :: rs)) =
        (fun o => (if r.rqcUser == some o then f r else 0) +
          countWith f o rs) :=
      funext (fun o => countWith_cons f o r rs)
    rw [hfn, sum_map_addf, ih os hnd
      (fun x hx => hcov x (List.mem_cons_of_mem _ hx))]
    have hsingle : (os.map (fun o => if r.rqcUser == some o then f r
        else 0)).sum = f r := by
      rw [ho0]
      exact sum_if_single os o0 (f r) hnd ho0mem
    rw [hsingle, List.map_cons, List.sum_cons]

theorem sum_unblindedFlag (records : List Record) :
    (records.map unblindedFlag).sum =
      records.countP (fun r => containsCI (contentStr r.content) "Unblinded") := by
  induction records with
  | nil => rfl
  | cons r rs ih =>
    rw [List.map_cons, List.sum_cons, ih, List.countP_cons]
    unfold unblindedFlag
    by_cases h : containsCI (contentStr r.content) "Unblinded" = true
    · rw [if_pos h]
      omega
    · rw [if_neg h]
      omega

theorem today_le_criteriaDate (today : Int) : today ≤ criteriaDate today := by
  unfold criteriaDate daysUntilSunday weekday
  omega

theorem dueFlag_mono (today : Int) (r : Record) :
    dueTodayFlag today r ≤ dueByFridayFlag today r := by
  unfold dueTodayFlag dueByFridayFlag
  cases h : toDate r.dueDate with
  | none =>
    dsimp only
    exact Nat.le_refl 0
  | some d =>
    dsimp only
    by_cases hd : d ≤ today
    · rw [if_pos hd, if_pos (le_trans hd (today_le_criteriaDate today))]
    · rw [if_neg hd]
      exact Nat.zero_le _

theorem countWith_middle_none {r : Record} (h : r.rqcUser = none)
    (f : Record → Nat) (o : String) (l1 l2 : List Record) :
    countWith f o (l1 ++ r :: l2) = countWith f o (l1 ++ l2) := by
  unfold countWith
  rw [List.filter_append, List.filter_append, List.filter_cons]
  have hfalse : (r.rqcUser == some o) = false := by
    rw [h]
    rfl
  rw [hfalse]
  simp

theorem buildPivot_guard_middle_none {l1 l2 : List Record} {r : Record}
    (h : r.rqcUser = none) :
    ((l1 ++ r :: l2) = [] ∨ ∀ x ∈ l1 ++ r :: l2, x.rqcUser = none) ↔
      ((l1 ++ l2) = [] ∨ ∀ x ∈ l1 ++ l2, x.rqcUser = none) := by
  constructor
  · rintro (habs | hall)
    · exact absurd habs (by simp)
    · right
      intro x hx
      apply hall
      rcases List.mem_append.1 hx with hx | hx
      · exact List.mem_append.2 (Or.inl hx)
      · exact List.mem_append.2 (Or.inr (List.mem_cons_of_mem _ hx))
  · rintro (hnil | hall)
    · right
      intro x hx
      have h12 := List.append_eq_nil.1 hnil
      rcases List.mem_append.1 hx with hx | hx
      · rw [h12.1] at hx
        simp at hx
      · rcases List.mem_cons.1 hx with rfl | hx
        · exact h
        · rw [h12.2] at hx
          simp at hx
    · right
      intro x hx
      rcases List.mem_append.1 hx with hx | hx
      · exact hall x (List.mem_append.2 (Or.inl hx))
      · rcases List.mem_cons.1 hx with rfl | hx
        · exact h
        · exact hall x (List.mem_append.2 (Or.inr hx))

theorem buildPivot_middle_none (today : Int) (l1 l2 : List Record)
    (r : Record) (h : r.rqcUser = none) :
    buildPivot today (l1 ++ r :: l2) = buildPivot today (l1 ++ l2) := by
  unfold buildPivot
  by_cases hc : (l1 ++ l2) = [] ∨ ∀ x ∈ l1 ++ l2, x.rqcUser = none
  · rw [if_pos hc, if_pos ((buildPivot_guard_middle_none h).2 hc)]
  · rw [if_neg hc, if_neg (fun hx => hc ((buildPivot_guard_middle_none h).1 hx))]
    have howners : (l1 ++ r :: l2).filterMap (fun x => x.rqcUser) =
        (l1 ++ l2).filterMap (fun x => x.rqcUser) := by
      rw [List.filterMap_append, List.filterMap_append, List.filterMap_cons, h]
    have hfn : (fun o => SummaryRow.mk o
          (countWith unblindedFlag o (l1 ++ r :: l2))
          (countWith (dueTodayFlag today) o (l1 ++ r :: l2))
          (countWith (dueByFridayFlag today) o (l1 ++ r :: l2))) =
        (fun o => SummaryRow.mk o
          (countWith unblindedFlag o (l1 ++ l2))
          (countWith (dueTodayFlag today) o (l1 ++ l2))
          (countWith (dueByFridayFlag today) o (l1 ++ l2))) := by
      funext o
      rw [countWith_middle_none h, countWith_middle_none h,
        countWith_middle_none h]
    rw [howners, hfn]

theorem countWith_middle_zero {f : Record → Nat} {r : Record} (hf : f r = 0)
    (o : String) (l1 l2 : List Record) :
    countWith f o (l1 ++ r :: l2) = countWith f o (l1 ++ l2) := by
  unfold countWith
  rw [List.filter_append, List.filter_append, List.filter_cons]
  by_cases h : (r.rqcUser == some o) = true
  · rw [if_pos h]
    simp [hf]
  · rw [if_neg h]

/- ### Claims -/

/-- Claim C7: for every reference date, the aggregation's criteria date is
computed as the reference date plus `(6 - weekday + 7) mod 7` days
(weekday Monday = 0 .. Sunday = 6), and this equals the next Sunday on or
after the reference date: it falls on a Sunday, is at least the reference
date, equals it when the reference date is itself a Sunday, and no earlier
Sunday lies on or after the reference date. -/
theorem claim_c7_criteria_date_is_next_sunday (d : Int) :
    criteriaDate d = d + (6 - weekday d + 7) % 7 ∧
    weekday (criteriaDate d) = 6 ∧
    d ≤ criteriaDate d ∧
    (weekday d = 6 → criteriaDate d = d) ∧
    ∀ e : Int, d ≤ e → weekday e = 6 → criteriaDate d ≤ e := by
  unfold criteriaDate daysUntilSunday weekday
  refine ⟨rfl, ?_, ?_, ?_, ?_⟩ <;> omega

/-- Witness for C7 at a concrete Wednesday (day 2) and Sunday (day 13). -/
theorem claim_c7_witness :
    weekday (criteriaDate 2) = 6 ∧ (2 : Int) ≤ criteriaDate 2 ∧
    criteriaDate 2 ≤ 6 ∧ criteriaDate 13 = 13 :=
  ⟨(claim_c7_criteria_date_is_next_sunday 2).2.1,
   (claim_c7_criteria_date_is_next_sunday 2).2.2.1,
   (claim_c7_criteria_date_is_next_sunday 2).2.2.2.2 6 (by decide) (by decide),
   (claim_c7_criteria_date_is_next_sunday 13).2.2.2.1 (by decide)⟩

/-- Claim C9: a record whose due-date cell is missing or unparseable is
treated as having no date: it contributes `0` to both `Count_DueToday` and
`Count_DueByCriteriaDate`, and the aggregated date counts over any list
containing such a record equal those over the list with it removed (the
remaining records are processed normally, nothing aborts). -/
theorem claim_c9_unparseable_due_date_degrades (today : Int) (r : Record)
    (h : r.dueDate = DueCell.missing ∨
      ∃ s, r.dueDate = DueCell.unparseable s) :
    dueTodayFlag today r = 0 ∧ dueByFridayFlag today r = 0 ∧
    ∀ (o : String) (l1 l2 : List Record),
      countWith (dueTodayFlag today) o (l1 ++ r :: l2) =
        countWith (dueTodayFlag today) o (l1 ++ l2) ∧
      countWith (dueByFridayFlag today) o (l1 ++ r :: l2) =
        countWith (dueByFridayFlag today) o (l1 ++ l2) := by
  have hnone : toDate r.dueDate = none := by
    rcases h with h | ⟨s, h⟩ <;> rw [h] <;> rfl
  have h1 : dueTodayFlag today r = 0 := by
    unfold dueTodayFlag
    rw [hnone]
  have h2 : dueByFridayFlag today r = 0 := by
    unfold dueByFridayFlag
    rw [hnone]
  exact ⟨h1, h2, fun o l1 l2 =>
    ⟨countWith_middle_zero h1 o l1 l2, countWith_middle_zero h2 o l1 l2⟩⟩

/-- A concrete record with a missing due date, for the C9 witness. -/
def sampleNoDateRecord : Record :=
  { rqcUser := some "Alice", content := some "x", dueDate := DueCell.missing }

/-- Witness for C9 on a concrete record with a missing due date. -/
theorem claim_c9_witness :
    dueTodayFlag 0 sampleNoDateRecord = 0 ∧
    dueByFridayFlag 0 sampleNoDateRecord = 0 ∧
    countWith (dueTodayFlag 0) "Alice" ([] ++ sampleNoDateRecord :: []) =
      countWith (dueTodayFlag 0) "Alice" ([] ++ []) :=
  ⟨(claim_c9_unparseable_due_date_degrades 0 _ (Or.inl rfl)).1,
   (claim_c9_unparseable_due_date_degrades 0 _ (Or.inl rfl)).2.1,
   ((claim_c9_unparseable_due_date_degrades 0 _ (Or.inl rfl)).2.2
     "Alice" [] []).1⟩

/-- A concrete enriched record with owner `"Alice"` and unblinded content. -/
def sampleUnblindedRecord : Record :=
  { rqcUser := some "Alice", content := some "Unblinded",
    dueDate := DueCell.parsed 0 }

/-- A concrete record whose owner cell is missing. -/
def sampleNoOwnerRecord : Record :=
  { rqcUser := none, content := some "Unblinded", dueDate := DueCell.parsed 0 }

/-- A concrete enriched record with owner `"Bob"` and no content cell. -/
def sampleBobRecord : Record :=
  { rqcUser := some "Bob", content := none, dueDate := DueCell.parsed 3 }

/-- Claim C1 counterexample: a non-empty aggregation result whose value
columns are not in the claimed order `Unblinded, Due By Today,
Due By Friday` (pandas `pivot_table` sorts the value columns by their
pre-rename names, yielding `Due By Friday, Due By Today, Unblinded`). -/
theorem claim_c1_counterexample :
    (buildPivot 0 [sampleUnblindedRecord]).rows ≠ [] ∧
    (buildPivot 0 [sampleUnblindedRecord]).headers ≠
      ["Unblinded", "Due By Today", "Due By Friday"] := by
  constructor
  · decide
  · decide

/-- Claim C1 (amended): for every non-empty aggregation result, the summary
table has exactly the three value columns `"Unblinded"`, `"Due By Today"`
and `"Due By Friday"`, but in the order `"Due By Friday"`, `"Due By
Today"`, `"Unblinded"` (ascending order of the pre-rename column names,
as produced by `pd.pivot_table`); the claimed order occurs only in the
empty-result placeholder frame. -/
theorem claim_c1_pivot_headers (today : Int) (records : List Record)
    (h : ¬(records = [] ∨ ∀ r ∈ records, r.rqcUser = none)) :
    (buildPivot today records).headers =
      ["Due By Friday", "Due By Today", "Unblinded"] := by
  unfold buildPivot
  rw [if_neg h]
  show sortedPivotHeaders = _
  decide

/-- Witness for the amended C1 on a one-record input. -/
theorem claim_c1_witness :
    ¬(([sampleUnblindedRecord] : List Record) = [] ∨
      ∀ r ∈ ([sampleUnblindedRecord] : List Record), r.rqcUser = none) ∧
    (buildPivot 0 [sampleUnblindedRecord]).headers =
      ["Due By Friday", "Due By Today", "Unblinded"] :=
  ⟨by decide, claim_c1_pivot_headers 0 [sampleUnblindedRecord] (by decide)⟩

/-- Claim C2: a record whose owner field is missing/empty (a NaN `RQC
User` cell) is excluded from the aggregation entirely: the pivot of any
list containing it equals the pivot of the list with it removed, so it
contributes to no summary row and creates no `"NA"` bucket. -/
theorem claim_c2_missing_owner_excluded (today : Int) (l1 l2 : List Record)
    (r : Record) (h : r.rqcUser = none) :
    buildPivot today (l1 ++ r :: l2) = buildPivot today (l1 ++ l2) :=
  buildPivot_middle_none today l1 l2 r h

/-- Witness for C2 on a concrete two-record input. -/
theorem claim_c2_witness :
    buildPivot 0 ([sampleUnblindedRecord] ++ sampleNoOwnerRecord :: []) =
      buildPivot 0 ([sampleUnblindedRecord] ++ []) :=
  claim_c2_missing_owner_excluded 0 [sampleUnblindedRecord] []
    sampleNoOwnerRecord rfl

theorem buildPivot_rows_unblinded_sum (today : Int) (records : List Record)
    (h : ∀ r ∈ records, r.rqcUser ≠ none)
    (hc : ¬(records = [] ∨ ∀ r ∈ records, r.rqcUser = none)) :
    (((buildPivot today records).rows).map (fun row => row.unblinded)).sum =
      (records.map unblindedFlag).sum := by
  unfold buildPivot
  rw [if_neg hc]
  dsimp only
  rw [List.map_map]
  have hcomp : ((fun row : SummaryRow => row.unblinded) ∘ (fun o =>
      SummaryRow.mk o (countWith unblindedFlag o records)
        (countWith (dueTodayFlag today) o records)
        (countWith (dueByFridayFlag today) o records))) =
      (fun o => countWith unblindedFlag o records) := rfl
  rw [hcomp]
  apply sum_countWith
  · exact nodup_dedupFirst _
  · intro r hr
    rcases ho : r.rqcUser with _ | o
    · exact absurd ho (h r hr)
    · exact ⟨o, mem_dedupFirst.2 (List.mem_filterMap.2 ⟨r, hr, ho⟩), rfl⟩

/-- Claim C4: for every sequence of enriched records (owner always
resolved, never missing), all pivot counts are non-negative integers and
the sum of the `Unblinded` column over all summary rows equals the number
of records whose content cell case-insensitively contains the substring
`"Unblinded"`. -/
theorem claim_c4_unblinded_sum_invariant (today : Int) (records : List Record)
    (h : ∀ r ∈ records, r.rqcUser ≠ none) :
    (∀ row ∈ (buildPivot today records).rows,
      0 ≤ row.unblinded ∧ 0 ≤ row.dueToday ∧ 0 ≤ row.dueByFriday) ∧
    (((buildPivot today records).rows).map (fun row => row.unblinded)).sum =
      records.countP (fun r => containsCI (contentStr r.content) "Unblinded") := by
  constructor
  · intro row _
    exact ⟨Nat.zero_le _, Nat.zero_le _, Nat.zero_le _⟩
  · by_cases hc : records = [] ∨ ∀ r ∈ records, r.rqcUser = none
    · have hre : records = [] := by
        rcases hc with hc | hall
        · exact hc
        · cases records with
          | nil => rfl
          | cons r rs =>
            exact absurd (hall r (List.mem_cons_self r rs))
              (h r (List.mem_cons_self r rs))
      rw [hre]
      rfl
    · rw [buildPivot_rows_unblinded_sum today records h hc]
      exact sum_unblindedFlag records

/-- Witness for C4 on a concrete two-record input. -/
theorem claim_c4_witness :
    (((buildPivot 0 [sampleUnblindedRecord, sampleBobRecord]).rows).map
      (fun row => row.unblinded)).sum =
      ([sampleUnblindedRecord, sampleBobRecord] : List Record).countP
        (fun r => containsCI (contentStr r.content) "Unblinded") :=
  (claim_c4_unblinded_sum_invariant 0 [sampleUnblindedRecord, sampleBobRecord]
    (by decide)).2

/-- Claim C10: in every aggregation output, each owner's due-today count
is at most that owner's due-by-criteria-date count (the reference date is
never after the computed Sunday, so every record counted as due today is
also counted as due by the criteria date). -/
theorem claim_c10_due_today_le_due_by_friday (today : Int)
    (records : List Record) :
    ∀ row ∈ (buildPivot today records).rows, row.dueToday ≤ row.dueByFriday := by
  intro row hrow
  unfold buildPivot at hrow
  by_cases hc : records = [] ∨ ∀ r ∈ records, r.rqcUser = none
  · rw [if_pos hc] at hrow
    simp at hrow
  · rw [if_neg hc] at hrow
    dsimp only at hrow
    obtain ⟨o, homem, hrow⟩ := List.mem_map.1 hrow
    rw [← hrow]
    dsimp only
    unfold countWith
    exact List.sum_le_sum (fun r _ => dueFlag_mono today r)

/-- Witness for C10 on a concrete one-record input. -/
theorem claim_c10_witness :
    ({ owner := "Alice", unblinded := 1, dueToday := 1, dueByFriday := 1 } :
      SummaryRow).dueToday ≤
    ({ owner := "Alice", unblinded := 1, dueToday := 1, dueByFriday := 1 } :
      SummaryRow).dueByFriday :=
  claim_c10_due_today_le_due_by_friday 0 [sampleUnblindedRecord]
    { owner := "Alice", unblinded := 1, dueToday := 1, dueByFriday := 1 }
    (by decide)

/-- Claim C5: among the matching filenames the resolver returns the one
with the highest parenthesized integer, compared numerically; the bare
(unnumbered) file is treated as having no number and is selected only
when no numbered match exists. -/
theorem claim_c5_resolver_picks_max (pattern : String) (listing : List String) :
    ((∃ f ∈ listing, ∃ n : Nat, matchOf pattern f = some (some n)) →
      find_latest_file pattern listing ∈ listing ∧
      ∃ k : Nat,
        matchOf pattern (find_latest_file pattern listing) = some (some k) ∧
        ∀ f ∈ listing, ∀ j : Nat, matchOf pattern f = some (some j) → j ≤ k) ∧
    ((∃ f ∈ listing, matchOf pattern f = some none) →
      (∀ f ∈ listing, ∀ n : Nat, matchOf pattern f ≠ some (some n)) →
      find_latest_file pattern listing ∈ listing ∧
      matchOf pattern (find_latest_file pattern listing) = some none) :=
  ⟨fun h => resolver_numbered h, fun hm hno => resolver_bare hm hno⟩

/-- Witness for C5 on the spec's example listing: the numeric winner is
`"Report (10).xlsx"`, not the lexicographic `"Report (2).xlsx"`. -/
theorem claim_c5_witness :
    find_latest_file "Report.xlsx"
      ["Report.xlsx", "Report (2).xlsx", "Report (10).xlsx"] =
      "Report (10).xlsx" ∧
    (find_latest_file "Report.xlsx"
      ["Report.xlsx", "Report (2).xlsx", "Report (10).xlsx"] ∈
      (["Report.xlsx", "Report (2).xlsx", "Report (10).xlsx"] : List String) ∧
    ∃ k : Nat,
      matchOf "Report.xlsx" (find_latest_file "Report.xlsx"
        ["Report.xlsx", "Report (2).xlsx", "Report (10).xlsx"]) =
        some (some k) ∧
      ∀ f ∈ (["Report.xlsx", "Report (2).xlsx", "Report (10).xlsx"] :
        List String), ∀ j : Nat,
        matchOf "Report.xlsx" f = some (some j) → j ≤ k) :=
  ⟨by decide,
   (claim_c5_resolver_picks_max "Report.xlsx"
      ["Report.xlsx", "Report (2).xlsx", "Report (10).xlsx"]).1
     ⟨"Report (10).xlsx", by decide, 10, by decide⟩⟩

/-- Claim C8: when no filename in the listing matches the pattern, the
resolver returns the original base pattern unchanged (and, being a total
function, never raises in the no-match case). -/
theorem claim_c8_no_match_returns_pattern (pattern : String)
    (listing : List String) (h : ∀ f ∈ listing, matchOf pattern f = none) :
    find_latest_file pattern listing = pattern :=
  resolver_no_match h

/-- Witness for C8 on the spec's example. -/
theorem claim_c8_witness :
    find_latest_file "Report.xlsx" ["Other.xlsx"] = "Report.xlsx" :=
  claim_c8_no_match_returns_pattern "Report.xlsx" ["Other.xlsx"] (by decide)

/-- Claim C3 counterexample: two distinct filenames can match the same
pattern with the same parenthesized number (here with and without a space
before the parenthesis), and then the resolver's result depends on the
listing order, so two permutations of the same listing disagree. -/
theorem claim_c3_counterexample :
    (["Report (2).xlsx", "Report(2).xlsx"] : List String).Perm
      ["Report(2).xlsx", "Report (2).xlsx"] ∧
    find_latest_file "Report.xlsx" ["Report (2).xlsx", "Report(2).xlsx"] ≠
      find_latest_file "Report.xlsx" ["Report(2).xlsx", "Report (2).xlsx"] := by
  constructor
  · exact List.Perm.swap _ _ _
  · decide

/-- Claim C3 (amended): the resolver's result is independent of the
listing order provided no two distinct matching filenames produce the
same match result (the same parenthesized number, or both bare); in
general, among equal-numbered matches the earliest listed wins, so
determinism holds only up to such ties. -/
theorem claim_c3_order_independent (p : String) (l1 l2 : List String)
    (hperm : l1.Perm l2)
    (huniq : ∀ f ∈ l1, ∀ g ∈ l1, matchOf p f ≠ none →
      matchOf p f = matchOf p g → f = g) :
    find_latest_file p l1 = find_latest_file p l2 := by
  by_cases hnum : ∃ f ∈ l1, ∃ n : Nat, matchOf p f = some (some n)
  · obtain ⟨r1mem, k1, hr1, hb1⟩ :=
      resolver_numbered hnum
    have hnum2 : ∃ f ∈ l2, ∃ n : Nat, matchOf p f = some (some n) := by
      obtain ⟨f, hf, n, hm⟩ := hnum
      exact ⟨f, hperm.mem_iff.1 hf, n, hm⟩
    obtain ⟨r2mem, k2, hr2, hb2⟩ :=
      resolver_numbered hnum2
    have hk12 : k1 ≤ k2 := hb2 _ (hperm.mem_iff.1 r1mem) k1 hr1
    have hk21 : k2 ≤ k1 := hb1 _ (hperm.mem_iff.2 r2mem) k2 hr2
    have hk : k1 = k2 := le_antisymm hk12 hk21
    apply huniq _ r1mem _ (hperm.mem_iff.2 r2mem)
    · rw [hr1]
      simp
    · rw [hr1, hr2, hk]
  · by_cases hbare : ∃ f ∈ l1, matchOf p f = some none
    · have hno1 : ∀ f ∈ l1, ∀ n : Nat, matchOf p f ≠ some (some n) := by
        intro f hf n hm
        exact hnum ⟨f, hf, n, hm⟩
      have hno2 : ∀ f ∈ l2, ∀ n : Nat, matchOf p f ≠ some (some n) := by
        intro f hf n hm
        exact hnum ⟨f, hperm.mem_iff.2 hf, n, hm⟩
      obtain ⟨r1mem, hr1⟩ := resolver_bare hbare hno1
      have hbare2 : ∃ f ∈ l2, matchOf p f = some none := by
        obtain ⟨f, hf, hm⟩ := hbare
        exact ⟨f, hperm.mem_iff.1 hf, hm⟩
      obtain ⟨r2mem, hr2⟩ := resolver_bare hbare2 hno2
      apply huniq _ r1mem _ (hperm.mem_iff.2 r2mem)
      · rw [hr1]
        simp
      · rw [hr1, hr2]
    · have hnone1 : ∀ f ∈ l1, matchOf p f = none := by
        intro f hf
        rcases hv : matchOf p f with _ | v
        · rfl
        · rcases v with _ | n
          · exact absurd ⟨f, hf, hv⟩ hbare
          · exact absurd ⟨f, hf, n, hv⟩ hnum
      have hnone2 : ∀ f ∈ l2, matchOf p f = none := fun f hf =>
        hnone1 f (hperm.mem_iff.2 hf)
      rw [resolver_no_match hnone1, resolver_no_match hnone2]

/-- Witness for the amended C3: on a listing whose matches carry pairwise
distinct numbers, a permutation does not change the result. -/
theorem claim_c3_witness :
    find_latest_file "Report.xlsx"
      ["Report.xlsx", "Report (2).xlsx", "Report (10).xlsx"] =
    find_latest_file "Report.xlsx"
      ["Report (10).xlsx", "Report.xlsx", "Report (2).xlsx"] :=
  claim_c3_order_independent "Report.xlsx"
    ["Report.xlsx", "Report (2).xlsx", "Report (10).xlsx"]
    ["Report (10).xlsx", "Report.xlsx", "Report (2).xlsx"]
    (by decide) (by decide)

/-- Claim C6: for every ownership map and every raw `Study` cell, the
owner computed by the enrichment code equals the spec's description:
split the cell on commas, trim each piece, look each trimmed piece up in
the map defaulting to `"NA"`, deduplicate preserving first occurrence,
and join with `", "`; an empty or missing cell yields `"NA"`. -/
theorem claim_c6_enrichment_matches_spec (m : List (String × String))
    (cell : Option String) :
    computeRqcUser m cell = spec_enrichOwner m cell := by
  cases cell with
  | none => rfl
  | some s =>
    by_cases hs : s = ""
    · subst hs
      rfl
    · unfold computeRqcUser spec_enrichOwner
      dsimp only
      rw [if_neg hs, if_neg hs]
      rw [users_fold_eq_dedupFirst m s]
      have hne : dedupFirst ((splitComma s.data).map
          (fun cs => dictGet m (strip ⟨cs⟩) "NA")) ≠ [] := by
        apply dedupFirst_ne_nil
        simp only [ne_eq, List.map_eq_nil_iff]
        exact splitComma_ne_nil s.data
      rw [if_neg hne]
